import Mathlib

/-!
Verification of the static-dt-rs flattened-devicetree parser.

The Rust source is shallowly embedded: byte buffers are `List Nat` (each
element is a `u8` value, hence below 256 in any real buffer), fallible or
panicking code returns `Option`, and the two iterator types are modelled as
step functions on their explicit cursor state.  A Rust panic (out-of-bounds
index or `unwrap` of `None`) is modelled as `none` / a `fatal` outcome.
-/

namespace StaticDT

/-- Total big-endian 32-bit read used to phrase in-bounds reads.  The Rust
source ors together left-shifted `u8` values; since the bytes are below 256
the shifted fields do not overlap and the or equals this sum. -/
def be32 (buf : List Nat) (offs : Nat) : Nat :=
  buf.getD offs 0 * 2 ^ 24 + buf.getD (offs + 1) 0 * 2 ^ 16 +
    buf.getD (offs + 2) 0 * 2 ^ 8 + buf.getD (offs + 3) 0

/-- utils.rs `read_fdt_u32`: indexes `buf[offs] .. buf[offs+3]`, panicking
(`none`) when the last index is out of bounds. -/
def read_fdt_u32 (buf : List Nat) (offs : Nat) : Option Nat :=
  if offs + 4 ≤ buf.length then some (be32 buf offs) else none

/-- Scan a byte list for the first zero byte; return the bytes before it
(the Rust loop body of `get_fdt_string`), or `none` when no zero occurs. -/
def c_string : List Nat → Option (List Nat)
  | [] => none
  | c :: rest => if c = 0 then some [] else (c_string rest).map (c :: ·)

/-- utils.rs `get_fdt_string`: scans `buf[offs..]` for a null terminator and
returns the slice before it.  Rust panics when `offs` exceeds the length
(slicing `buf[offs..]`); both that panic and the caller-side `unwrap` of a
missing terminator surface as `none`, which every decoder call site treats
as fatal, matching the source. -/
def get_fdt_string (buf : List Nat) (offs : Nat) : Option (List Nat) :=
  if offs ≤ buf.length then c_string (buf.drop offs) else none

/-- lib.rs `Error`. -/
inductive Error where
  | InvalidMagic : Error
  | UnsupportedVersion (v : Nat) : Error
deriving DecidableEq

/-- lib.rs `DeviceTree`: the backing buffer plus the two derived slices. -/
structure DeviceTree where
  fdt : List Nat
  structs : List Nat
  strings : List Nat
deriving DecidableEq

/-- lib.rs `Token`.  `BeginNode` carries the owning tree, the resume offset
just past the (padded) name, and the name; `Property` carries the owning
tree, the resolved name and the exact-length value. -/
inductive Token where
  | Invalid (x : Nat) : Token
  | BeginNode (dt : DeviceTree) (offs : Nat) (name : List Nat) : Token
  | EndNode : Token
  | Property (dt : DeviceTree) (name : List Nat) (val : List Nat) : Token
  | NoOperation : Token
  | End : Token
deriving DecidableEq

/-- Header accessor `magic` (offset 0). -/
def DeviceTree.magic (dt : DeviceTree) : Option Nat := read_fdt_u32 dt.fdt 0

/-- Header accessor `last_comp_version` (offset 24). -/
def DeviceTree.last_comp_version (dt : DeviceTree) : Option Nat :=
  read_fdt_u32 dt.fdt 24

/-- The header checks of lib.rs `DeviceTree::back`, after the slices have
been made: magic first, then last-compatible-version (carrying the value
read); the fallback arm models the panic of a header read, which cannot
occur when the layout reads of `back` succeeded. -/
def backChecks (dt : DeviceTree) : Option (Except Error DeviceTree) :=
  match dt.magic, dt.last_comp_version with
  | some m, some lcv =>
    if m ≠ 0xD00DFEED then some (.error .InvalidMagic)
    else if lcv ≠ 16 then some (.error (.UnsupportedVersion lcv))
    else some (.ok dt)
  | _, _ => none

/-- lib.rs `DeviceTree::back`: read the four layout fields, slice the two
blocks (Rust panics when a slice bound exceeds the buffer: `none`), then
check magic and last-compatible-version in that order. -/
def DeviceTree.back (fdt : List Nat) : Option (Except Error DeviceTree) :=
  match read_fdt_u32 fdt 8, read_fdt_u32 fdt 12,
      read_fdt_u32 fdt 36, read_fdt_u32 fdt 32 with
  | some struct_offs, some strings_offs, some struct_size, some string_size =>
    if struct_offs + struct_size ≤ fdt.length ∧
        strings_offs + string_size ≤ fdt.length then
      backChecks
        ⟨fdt, (fdt.drop struct_offs).take struct_size,
          (fdt.drop strings_offs).take string_size⟩
    else none
  | _, _, _, _ => none

/-- The precondition of claim C1: the header is readable and both
header-derived slices lie within the buffer. -/
def headerBoundsOk (fdt : List Nat) : Prop :=
  40 ≤ fdt.length ∧ be32 fdt 8 + be32 fdt 36 ≤ fdt.length ∧
    be32 fdt 12 + be32 fdt 32 ≤ fdt.length

instance (fdt : List Nat) : Decidable (headerBoundsOk fdt) := by
  unfold headerBoundsOk; infer_instance

/-- Outcome of one `TokenIterator::next` step on a present tree: a panic,
`None` (with the cursor state it leaves behind), or a token (likewise). -/
inductive Flow where
  | fatal : Flow
  | stop (offs : Nat) : Flow
  | yield (t : Token) (offs : Nat) : Flow
deriving DecidableEq

/-- lib.rs `TokenIterator::next` for a present `dt`, acting on the cursor
`offs`: read the token id (advancing 4), then dispatch exactly as the
source does.  Ids 9 (End) and any unrecognized id end the stream but leave
the advanced cursor behind. -/
def tokenNextAt (dt : DeviceTree) (offs : Nat) : Flow :=
  match read_fdt_u32 dt.structs offs with
  | none => .fatal
  | some token_id =>
    if token_id = 1 then
      match get_fdt_string dt.structs (offs + 4) with
      | none => .fatal
      | some s =>
        .yield (.BeginNode dt (offs + 4 + (s.length / 4 + 1) * 4) s)
          (offs + 4 + (s.length / 4 + 1) * 4)
    else if token_id = 2 then .yield .EndNode (offs + 4)
    else if token_id = 3 then
      match read_fdt_u32 dt.structs (offs + 4),
          read_fdt_u32 dt.structs (offs + 8) with
      | some len, some nameoff =>
        match get_fdt_string dt.strings nameoff with
        | none => .fatal
        | some name =>
          if offs + 12 + len ≤ dt.structs.length then
            .yield (.Property dt name ((dt.structs.drop (offs + 12)).take len))
              (offs + 12 + ((len + 3) / 4) * 4)
          else .fatal
      | _, _ => .fatal
    else if token_id = 4 then .yield .NoOperation (offs + 4)
    else .stop (offs + 4)

/-- lib.rs `TokenIterator`: optional tree (the `none` iterator yields
nothing) plus cursor. -/
structure TokenIterator where
  dt : Option DeviceTree
  offs : Nat
deriving DecidableEq

/-- `TokenIterator::next` on the full iterator state.  Outer `none` is a
panic; `some (none, it')` is Rust's `None` return with the successor
state; `some (some t, it')` yields a token. -/
def TokenIterator.next (it : TokenIterator) : Option (Option Token × TokenIterator) :=
  match it.dt with
  | none => some (none, it)
  | some dt =>
    match tokenNextAt dt it.offs with
    | .fatal => none
    | .stop o => some (none, ⟨it.dt, o⟩)
    | .yield t o => some (some t, ⟨it.dt, o⟩)

theorem read_fdt_u32_some {buf : List Nat} {offs v : Nat}
    (h : read_fdt_u32 buf offs = some v) : offs + 4 ≤ buf.length ∧ v = be32 buf offs := by
  unfold read_fdt_u32 at h
  split at h
  · exact ⟨by assumption, (Option.some_inj.mp h).symm⟩
  · exact absurd h (by simp)

theorem tokenNextAt_yield_offs {dt : DeviceTree} {offs : Nat} {t : Token} {o : Nat}
    (h : tokenNextAt dt offs = .yield t o) :
    offs + 4 ≤ o ∧ offs + 4 ≤ dt.structs.length := by
  unfold tokenNextAt at h
  split at h
  · exact absurd h (by simp)
  · rename_i id hid
    have hlen := (read_fdt_u32_some hid).1
    split at h
    · split at h
      · exact absurd h (by simp)
      · refine ⟨?_, hlen⟩
        have : o = offs + 4 + (_ / 4 + 1) * 4 := (Flow.yield.injEq _ _ _ _).mp h.symm |>.2
        omega
    · split at h
      · refine ⟨?_, hlen⟩
        have : o = offs + 4 := (Flow.yield.injEq _ _ _ _).mp h.symm |>.2
        omega
      · split at h
        · split at h
          · split at h
            · exact absurd h (by simp)
            · split at h
              · refine ⟨?_, hlen⟩
                have : o = offs + 12 + _ := (Flow.yield.injEq _ _ _ _).mp h.symm |>.2
                omega
              · exact absurd h (by simp)
          · exact absurd h (by simp)
        · split at h
          · refine ⟨?_, hlen⟩
            have : o = offs + 4 := (Flow.yield.injEq _ _ _ _).mp h.symm |>.2
            omega
          · exact absurd h (by simp)

theorem tokenNextAt_stop_offs {dt : DeviceTree} {offs : Nat} {o : Nat}
    (h : tokenNextAt dt offs = .stop o) :
    o = offs + 4 ∧ offs + 4 ≤ dt.structs.length := by
  unfold tokenNextAt at h
  split at h
  · exact absurd h (by simp)
  · rename_i id hid
    have hlen := (read_fdt_u32_some hid).1
    split at h
    · split at h <;> exact absurd h (by simp)
    · split at h
      · exact absurd h (by simp)
      · split at h
        · split at h
          · split at h
            · exact absurd h (by simp)
            · split at h <;> exact absurd h (by simp)
          · exact absurd h (by simp)
        · split at h
          · exact absurd h (by simp)
          · exact ⟨(Flow.stop.injEq _ _).mp h.symm, hlen⟩

/-- How a flat token sequence ends: the decoder returned `None` leaving the
cursor at `offs`, or it panicked. -/
inductive FlatEnd where
  | stopped (offs : Nat) : FlatEnd
  | fatal : FlatEnd
deriving DecidableEq

/-- The full sequence of tokens the flat decoder yields from `offs`,
together with how it ends.  This is the trace of repeated
`TokenIterator::next` calls. -/
def flatSeq (dt : DeviceTree) (offs : Nat) : List Token × FlatEnd :=
  match h : tokenNextAt dt offs with
  | .fatal => ([], .fatal)
  | .stop o => ([], .stopped o)
  | .yield t o => (t :: (flatSeq dt o).1, (flatSeq dt o).2)
termination_by dt.structs.length + 4 - offs
decreasing_by
  all_goals have := tokenNextAt_yield_offs h; omega

theorem flatSeq_of_yield {dt : DeviceTree} {offs : Nat} {t : Token} {o : Nat}
    (h : tokenNextAt dt offs = .yield t o) :
    flatSeq dt offs = (t :: (flatSeq dt o).1, (flatSeq dt o).2) := by
  conv_lhs => unfold flatSeq
  split <;> simp_all

theorem flatSeq_of_stop {dt : DeviceTree} {offs : Nat} {o : Nat}
    (h : tokenNextAt dt offs = .stop o) :
    flatSeq dt offs = ([], .stopped o) := by
  conv_lhs => unfold flatSeq
  split <;> simp_all

theorem flatSeq_of_fatal {dt : DeviceTree} {offs : Nat}
    (h : tokenNextAt dt offs = .fatal) :
    flatSeq dt offs = ([], .fatal) := by
  conv_lhs => unfold flatSeq
  split <;> simp_all

theorem flatSeq_cons {dt : DeviceTree} {offs : Nat} {t : Token} {ts : List Token}
    {e : FlatEnd} (h : flatSeq dt offs = (t :: ts, e)) :
    ∃ o, tokenNextAt dt offs = .yield t o ∧ flatSeq dt o = (ts, e) := by
  rw [show flatSeq dt offs = _ from rfl] at h
  unfold flatSeq at h
  split at h
  · simp at h
  · simp at h
  · rename_i t' o h'
    obtain ⟨⟨h1, h2⟩, h3⟩ := by simpa using h
    exact ⟨o, h1 ▸ h', by rw [Prod.ext_iff]; exact ⟨h2, h3⟩⟩

theorem flatSeq_nil_stopped {dt : DeviceTree} {offs : Nat} {o : Nat}
    (h : flatSeq dt offs = ([], .stopped o)) : tokenNextAt dt offs = .stop o := by
  unfold flatSeq at h
  split at h
  · simp at h
  · rename_i o' h'
    obtain rfl : o' = o := by simpa using h
    exact h'
  · simp at h

theorem flatSeq_nil_fatal {dt : DeviceTree} {offs : Nat}
    (h : flatSeq dt offs = ([], .fatal)) : tokenNextAt dt offs = .fatal := by
  unfold flatSeq at h
  split at h
  · assumption
  · simp at h
  · simp at h

/-- Outcome of one `HierarchyTokenIterator::next` call: a panic, a yielded
token with the successor cursor/level, or a `None` return with the state
the loop left behind. -/
inductive HFlow where
  | fatal : HFlow
  | yield (t : Token) (offs : Nat) (level : Int) : HFlow
  | stop (offs : Nat) (level : Int) : HFlow
deriving DecidableEq

/-- Two's-complement wrap of an integer into the `i16` range
[-32768, 32767].  The source keeps the nesting level in an `i16`, so its
`+= 1` / `-= 1` wrap at the boundary in a release build (a debug build
panics at exactly the inputs where this differs from plain plus/minus
one); the model follows the release (wrapping) semantics. -/
def wrap16 (x : Int) : Int := (x + 32768) % 65536 - 32768

theorem wrap16_eq_self {x : Int} (h1 : -32768 ≤ x) (h2 : x ≤ 32767) :
    wrap16 x = x := by
  unfold wrap16
  omega

/-- lib.rs `HierarchyTokenIterator::next` acting on cursor `offs` and the
`i16` nesting `level` (updates wrap via `wrap16`, the `i16` increment and
decrement): loop over the inner flat decoder, adjusting the level on
Begin-Node/End-Node and yielding exactly as the source does; tokens that
are not yielded are consumed by the recursive call, which continues from
the advanced inner cursor. -/
def hierNextAt (dt : DeviceTree) (offs : Nat) (level : Int) : HFlow :=
  match h : tokenNextAt dt offs with
  | .fatal => .fatal
  | .stop o => .stop o level
  | .yield t o =>
    match t with
    | .BeginNode _ _ _ =>
      if wrap16 (level + 1) ≤ 1 then .yield t o (wrap16 (level + 1))
      else hierNextAt dt o (wrap16 (level + 1))
    | .EndNode =>
      if wrap16 (level - 1) = 0 then .yield t o (wrap16 (level - 1))
      else if wrap16 (level - 1) < 0 then .stop o (wrap16 (level - 1))
      else hierNextAt dt o (wrap16 (level - 1))
    | _ => if level = 0 then .yield t o level else hierNextAt dt o level
termination_by dt.structs.length + 4 - offs
decreasing_by
  all_goals have := tokenNextAt_yield_offs h; omega

theorem hierNextAt_of_fatal {dt : DeviceTree} {offs : Nat} {level : Int}
    (h : tokenNextAt dt offs = .fatal) : hierNextAt dt offs level = .fatal := by
  conv_lhs => unfold hierNextAt
  split <;> simp_all

theorem hierNextAt_of_stop {dt : DeviceTree} {offs : Nat} {level : Int} {o : Nat}
    (h : tokenNextAt dt offs = .stop o) : hierNextAt dt offs level = .stop o level := by
  conv_lhs => unfold hierNextAt
  split <;> simp_all

theorem hierNextAt_of_begin {dt dt' : DeviceTree} {offs r : Nat} {n : List Nat}
    {o : Nat} {level : Int}
    (h : tokenNextAt dt offs = .yield (.BeginNode dt' r n) o) :
    hierNextAt dt offs level =
      if wrap16 (level + 1) ≤ 1 then .yield (.BeginNode dt' r n) o (wrap16 (level + 1))
      else hierNextAt dt o (wrap16 (level + 1)) := by
  conv_lhs => unfold hierNextAt
  split
  · simp_all
  · simp_all
  · rename_i t o' h'
    rw [h'] at h
    obtain ⟨rfl, rfl⟩ := by simpa using h
    rfl

theorem hierNextAt_of_end {dt : DeviceTree} {offs o : Nat} {level : Int}
    (h : tokenNextAt dt offs = .yield .EndNode o) :
    hierNextAt dt offs level =
      if wrap16 (level - 1) = 0 then .yield .EndNode o (wrap16 (level - 1))
      else if wrap16 (level - 1) < 0 then .stop o (wrap16 (level - 1))
      else hierNextAt dt o (wrap16 (level - 1)) := by
  conv_lhs => unfold hierNextAt
  split
  · simp_all
  · simp_all
  · rename_i t o' h'
    rw [h'] at h
    obtain ⟨rfl, rfl⟩ := by simpa using h
    rfl

theorem hierNextAt_of_other {dt : DeviceTree} {offs o : Nat} {level : Int} {t : Token}
    (h : tokenNextAt dt offs = .yield t o)
    (hb : ∀ dt' r n, t ≠ .BeginNode dt' r n) (he : t ≠ .EndNode) :
    hierNextAt dt offs level =
      if level = 0 then .yield t o level else hierNextAt dt o level := by
  conv_lhs => unfold hierNextAt
  split
  · simp_all
  · simp_all
  · rename_i t' o' h'
    rw [h'] at h
    obtain ⟨ht, ho⟩ : t' = t ∧ o' = o := by simpa using h
    rw [← ht, ← ho]
    rw [← ht] at hb he
    cases t' with
    | Invalid x => rfl
    | Property d n v => rfl
    | NoOperation => rfl
    | End => rfl
    | BeginNode d r n => exact absurd rfl (hb d r n)
    | EndNode => exact absurd rfl he

theorem tokenNextAt_fatal_of_oob {dt : DeviceTree} {offs : Nat}
    (h : dt.structs.length < offs + 4) : tokenNextAt dt offs = .fatal := by
  unfold tokenNextAt read_fdt_u32
  rw [if_neg (by omega)]

theorem tokenNextAt_yield_shape {dt : DeviceTree} {offs : Nat} {t : Token} {o : Nat}
    (h : tokenNextAt dt offs = .yield t o) :
    (∃ r n, t = .BeginNode dt r n ∧ r = o) ∨ t = .EndNode ∨
      (∃ n v, t = .Property dt n v) ∨ t = .NoOperation := by
  unfold tokenNextAt at h
  split at h
  · exact absurd h (by simp)
  · split at h
    · split at h
      · exact absurd h (by simp)
      · obtain ⟨rfl, rfl⟩ := by simpa using h
        exact Or.inl ⟨_, _, rfl, rfl⟩
    · split at h
      · obtain ⟨rfl, rfl⟩ := by simpa using h
        exact Or.inr (Or.inl rfl)
      · split at h
        · split at h
          · split at h
            · exact absurd h (by simp)
            · split at h
              · obtain ⟨rfl, rfl⟩ := by simpa using h
                exact Or.inr (Or.inr (Or.inl ⟨_, _, rfl⟩))
              · exact absurd h (by simp)
          · exact absurd h (by simp)
        · split at h
          · obtain ⟨rfl, rfl⟩ := by simpa using h
            exact Or.inr (Or.inr (Or.inr rfl))
          · exact absurd h (by simp)

theorem hierNextAt_yield_inv (dt : DeviceTree) :
    ∀ n offs level t o l, dt.structs.length + 4 - offs ≤ n →
      hierNextAt dt offs level = .yield t o l →
      offs + 4 ≤ o ∧ offs + 4 ≤ dt.structs.length ∧
        ∃ m, tokenNextAt dt m = .yield t o := by
  intro n
  induction n with
  | zero =>
    intro offs level t o l hle h
    rw [hierNextAt_of_fatal (tokenNextAt_fatal_of_oob (by omega))] at h
    exact absurd h (by simp)
  | succ n ih =>
    intro offs level t o l hle h
    match h' : tokenNextAt dt offs with
    | .fatal =>
      rw [hierNextAt_of_fatal h'] at h
      exact absurd h (by simp)
    | .stop o' =>
      rw [hierNextAt_of_stop h'] at h
      exact absurd h (by simp)
    | .yield t' o' =>
      obtain ⟨ho', hb⟩ := tokenNextAt_yield_offs h'
      have hrec : ∀ lv : Int, hierNextAt dt o' lv = .yield t o l →
          offs + 4 ≤ o ∧ offs + 4 ≤ dt.structs.length ∧
            ∃ m, tokenNextAt dt m = .yield t o := by
        intro lv hr
        obtain ⟨h1, h2, h3⟩ := ih o' lv t o l (by omega) hr
        exact ⟨by omega, hb, h3⟩
      have hdone : ∀ L : Int, HFlow.yield t' o' L = HFlow.yield t o l →
          offs + 4 ≤ o ∧ offs + 4 ≤ dt.structs.length ∧
            ∃ m, tokenNextAt dt m = .yield t o := by
        intro L hL
        obtain ⟨h1, h2, h3⟩ := (HFlow.yield.injEq _ _ _ _ _ _).mp hL
        exact ⟨by omega, hb, offs, by rw [h', h1, h2]⟩
      rcases tokenNextAt_yield_shape h' with ⟨r, nn, rfl, rfl⟩ | rfl | ⟨nn, v, rfl⟩ | rfl
      · rw [hierNextAt_of_begin h'] at h
        split at h
        · exact hdone _ h
        · exact hrec _ h
      · rw [hierNextAt_of_end h'] at h
        split at h
        · exact hdone _ h
        · split at h
          · exact absurd h (by simp)
          · exact hrec _ h
      · rw [hierNextAt_of_other h' (by intro d r n hc; cases hc) (by intro hc; cases hc)] at h
        split at h
        · exact hdone _ h
        · exact hrec _ h
      · rw [hierNextAt_of_other h' (by intro d r n hc; cases hc) (by intro hc; cases hc)] at h
        split at h
        · exact hdone _ h
        · exact hrec _ h

theorem hierNextAt_yield_offs {dt : DeviceTree} {offs : Nat} {level : Int}
    {t : Token} {o : Nat} {l : Int} (h : hierNextAt dt offs level = .yield t o l) :
    offs + 4 ≤ o ∧ offs + 4 ≤ dt.structs.length :=
  ⟨(hierNextAt_yield_inv dt _ offs level t o l (le_refl _) h).1,
    (hierNextAt_yield_inv dt _ offs level t o l (le_refl _) h).2.1⟩

theorem hierNextAt_yield_flat {dt : DeviceTree} {offs : Nat} {level : Int}
    {t : Token} {o : Nat} {l : Int} (h : hierNextAt dt offs level = .yield t o l) :
    ∃ m, tokenNextAt dt m = .yield t o :=
  (hierNextAt_yield_inv dt _ offs level t o l (le_refl _) h).2.2

theorem hierNextAt_yield_not_invalid {dt : DeviceTree} {offs : Nat} {level : Int}
    {t : Token} {o : Nat} {l : Int} (h : hierNextAt dt offs level = .yield t o l) :
    ∀ x, t ≠ .Invalid x := by
  intro x hx
  obtain ⟨m, hm⟩ := hierNextAt_yield_flat h
  rcases tokenNextAt_yield_shape hm with ⟨r, n, he, _⟩ | he | ⟨n, v, he⟩ | he <;>
    rw [hx] at he <;> cases he

/-- Fully drain a `HierarchyTokenIterator` from `(offs, level)`: the list of
yielded tokens, or `none` when the underlying decoder panics first. -/
def hierDrain (dt : DeviceTree) (offs : Nat) (level : Int) : Option (List Token) :=
  match h : hierNextAt dt offs level with
  | .fatal => none
  | .stop _ _ => some []
  | .yield t o l => (hierDrain dt o l).map (t :: ·)
termination_by dt.structs.length + 4 - offs
decreasing_by
  have := hierNextAt_yield_offs h; omega

theorem hierDrain_of_fatal {dt : DeviceTree} {offs : Nat} {level : Int}
    (h : hierNextAt dt offs level = .fatal) : hierDrain dt offs level = none := by
  conv_lhs => unfold hierDrain
  split <;> simp_all

theorem hierDrain_of_stop {dt : DeviceTree} {offs o : Nat} {level l : Int}
    (h : hierNextAt dt offs level = .stop o l) : hierDrain dt offs level = some [] := by
  conv_lhs => unfold hierDrain
  split <;> simp_all

theorem hierDrain_of_yield {dt : DeviceTree} {offs o : Nat} {level l : Int} {t : Token}
    (h : hierNextAt dt offs level = .yield t o l) :
    hierDrain dt offs level = (hierDrain dt o l).map (t :: ·) := by
  conv_lhs => unfold hierDrain
  split
  · simp_all
  · simp_all
  · rename_i t' o' l' h'
    rw [h'] at h
    obtain ⟨h1, h2, h3⟩ := (HFlow.yield.injEq _ _ _ _ _ _).mp h
    rw [h1, h2, h3]

/-- Is this token counted by `Token::len` on a node (a Begin-Node or a
Property)?  This is the filter closure in the source. -/
def isChild : Token → Bool
  | .BeginNode _ _ _ => true
  | .Property _ _ _ => true
  | _ => false

/-- lib.rs `Token::len`: byte length of a property value; for a node, the
number of Begin-Node/Property tokens of a full hierarchy-scoped drain of
its body (`none` when that drain panics); zero otherwise. -/
def Token.len : Token → Option Nat
  | .Property _ _ val => some val.length
  | .BeginNode dt offs _ => (hierDrain dt offs 0).map (fun l => (l.filter isChild).length)
  | _ => some 0

/-- lib.rs `Token::empty`: `len() == 0` (propagating a panic of `len`). -/
def Token.empty (t : Token) : Option Bool := t.len.map (fun n => n == 0)

/-- lib.rs `DeviceTree::root`: first token of a hierarchy-scoped iteration
from offset 0; the `unwrap` panic when there is none is `none`. -/
def DeviceTree.root (dt : DeviceTree) : Option Token :=
  match hierNextAt dt 0 0 with
  | .yield t _ _ => some t
  | _ => none

/-- Loop body of lib.rs `Token::get_node`: iterate the hierarchy-scoped
decoder, returning the first Begin-Node whose name equals `name`. -/
def get_node_loop (dt : DeviceTree) (offs : Nat) (level : Int) (name : List Nat) :
    Option (Option Token) :=
  match h : hierNextAt dt offs level with
  | .fatal => none
  | .stop _ _ => some none
  | .yield t o l =>
    match t with
    | .BeginNode _ _ s => if name = s then some (some t) else get_node_loop dt o l name
    | _ => get_node_loop dt o l name
termination_by dt.structs.length + 4 - offs
decreasing_by
  all_goals have := hierNextAt_yield_offs h; omega

/-- lib.rs `Token::get_node`: on a Begin-Node, search its scoped body; on
any other token the iterator is empty and the result is `None`. -/
def Token.get_node (t : Token) (name : List Nat) : Option (Option Token) :=
  match t with
  | .BeginNode dt offs _ => get_node_loop dt offs 0 name
  | _ => some none

/-- Loop body of lib.rs `Token::get_prop`, analogous to `get_node_loop`. -/
def get_prop_loop (dt : DeviceTree) (offs : Nat) (level : Int) (name : List Nat) :
    Option (Option Token) :=
  match h : hierNextAt dt offs level with
  | .fatal => none
  | .stop _ _ => some none
  | .yield t o l =>
    match t with
    | .Property _ s _ => if name = s then some (some t) else get_prop_loop dt o l name
    | _ => get_prop_loop dt o l name
termination_by dt.structs.length + 4 - offs
decreasing_by
  all_goals have := hierNextAt_yield_offs h; omega

/-- lib.rs `Token::get_prop`. -/
def Token.get_prop (t : Token) (name : List Nat) : Option (Option Token) :=
  match t with
  | .BeginNode dt offs _ => get_prop_loop dt offs 0 name
  | _ => some none

/-- lib.rs `Token::prop_u32`: read the `n`-th big-endian cell of a property
value; `None` when out of range or not a property.  Under the guard the
read is in bounds, so it is the total `be32`. -/
def Token.prop_u32 : Token → Nat → Option Nat
  | .Property _ _ val, n => if n * 4 + 4 > val.length then none else some (be32 val (n * 4))
  | _, _ => none

/-- Loop body of lib.rs `DeviceTree::get_phandle`: scan the whole flat
token stream, remembering the most recent Begin-Node in `last_node`
(initially `Invalid 0`), and return it at the first property whose first
cell equals `phandle`. -/
def get_phandle_loop (dt : DeviceTree) (phandle : Nat) (offs : Nat) (last_node : Token) :
    Option (Option Token) :=
  match h : tokenNextAt dt offs with
  | .fatal => none
  | .stop _ => some none
  | .yield t o =>
    match t with
    | .BeginNode _ _ _ => get_phandle_loop dt phandle o t
    | .Property _ _ _ =>
      match t.prop_u32 0 with
      | some x =>
        if x = phandle then some (some last_node) else get_phandle_loop dt phandle o last_node
      | none => get_phandle_loop dt phandle o last_node
    | _ => get_phandle_loop dt phandle o last_node
termination_by dt.structs.length + 4 - offs
decreasing_by
  all_goals have := tokenNextAt_yield_offs h; omega

/-- lib.rs `DeviceTree::get_phandle`: zero is not a valid phandle; otherwise
run the whole-tree scan from offset 0. -/
def DeviceTree.get_phandle (dt : DeviceTree) (phandle : Nat) : Option (Option Token) :=
  if phandle = 0 then some none
  else get_phandle_loop dt phandle 0 (.Invalid 0)

/-- lib.rs `Token::prop_phandle`: read the first cell of a property and
resolve it through `get_phandle`; `None` when not a property or the value
is too short for one cell. -/
def Token.prop_phandle (t : Token) : Option (Option Token) :=
  match t with
  | .Property dt _ _ =>
    match t.prop_u32 0 with
    | some phandle => dt.get_phandle phandle
    | none => some none
  | _ => some none

/-- The scan that claim C8 describes, phrased over the flat token list:
track the most recently seen Begin-Node and return it at the first
property whose first cell equals `ph`; properties shorter than one cell
never match. -/
def scanList (ph : Nat) : Token → List Token → Option Token
  | _, [] => none
  | last, t :: ts =>
    match t with
    | .BeginNode _ _ _ => scanList ph t ts
    | .Property _ _ _ =>
      match t.prop_u32 0 with
      | some x => if x = ph then some last else scanList ph last ts
      | none => scanList ph last ts
    | _ => scanList ph last ts

theorem c_string_spec : ∀ {l s : List Nat}, c_string l = some s →
    (∀ b ∈ s, b ≠ 0) ∧ ∃ rest, l = s ++ 0 :: rest := by
  intro l
  induction l with
  | nil => intro s h; exact absurd h (by simp [c_string])
  | cons c rest ih =>
    intro s h
    unfold c_string at h
    split at h
    · obtain rfl : ([] : List Nat) = s := by simpa using h
      rename_i hc
      exact ⟨by simp, rest, by simp [hc]⟩
    · rename_i hc
      match hrec : c_string rest with
      | none => rw [hrec] at h; exact absurd h (by simp)
      | some s' =>
        rw [hrec] at h
        obtain rfl : c :: s' = s := by simpa using h
        obtain ⟨hs1, r', hr'⟩ := ih hrec
        refine ⟨?_, r', by simp [hr']⟩
        intro b hb
        rcases List.mem_cons.mp hb with rfl | hb
        · exact hc
        · exact hs1 b hb

theorem get_fdt_string_spec {buf : List Nat} {offs : Nat} {s : List Nat}
    (h : get_fdt_string buf offs = some s) :
    (∀ b ∈ s, b ≠ 0) ∧ ∃ rest, buf.drop offs = s ++ 0 :: rest := by
  unfold get_fdt_string at h
  split at h
  · exact c_string_spec h
  · exact absurd h (by simp)

theorem get_phandle_loop_of_fatal {dt : DeviceTree} {ph offs : Nat} {last : Token}
    (h : tokenNextAt dt offs = .fatal) : get_phandle_loop dt ph offs last = none := by
  conv_lhs => unfold get_phandle_loop
  split <;> simp_all

theorem get_phandle_loop_of_stop {dt : DeviceTree} {ph offs o : Nat} {last : Token}
    (h : tokenNextAt dt offs = .stop o) : get_phandle_loop dt ph offs last = some none := by
  conv_lhs => unfold get_phandle_loop
  split <;> simp_all

theorem get_phandle_loop_of_begin {dt d : DeviceTree} {ph offs r o : Nat}
    {n : List Nat} {last : Token}
    (h : tokenNextAt dt offs = .yield (.BeginNode d r n) o) :
    get_phandle_loop dt ph offs last = get_phandle_loop dt ph o (.BeginNode d r n) := by
  conv_lhs => unfold get_phandle_loop
  split
  · simp_all
  · simp_all
  · rename_i t' o' h'
    rw [h'] at h
    injection h with h1 h2
    subst h1
    subst h2
    rfl

theorem get_phandle_loop_of_prop {dt d : DeviceTree} {ph offs o : Nat}
    {n v : List Nat} {last : Token}
    (h : tokenNextAt dt offs = .yield (.Property d n v) o) :
    get_phandle_loop dt ph offs last =
      match (Token.Property d n v).prop_u32 0 with
      | some x =>
        if x = ph then some (some last) else get_phandle_loop dt ph o last
      | none => get_phandle_loop dt ph o last := by
  conv_lhs => unfold get_phandle_loop
  split
  · simp_all
  · simp_all
  · rename_i t' o' h'
    rw [h'] at h
    injection h with h1 h2
    subst h1
    subst h2
    rfl

theorem get_phandle_loop_of_other {dt : DeviceTree} {ph offs o : Nat} {last t : Token}
    (h : tokenNextAt dt offs = .yield t o)
    (hb : ∀ d r n, t ≠ .BeginNode d r n) (hp : ∀ d n v, t ≠ .Property d n v) :
    get_phandle_loop dt ph offs last = get_phandle_loop dt ph o last := by
  conv_lhs => unfold get_phandle_loop
  split
  · simp_all
  · simp_all
  · rename_i t' o' h'
    rw [h'] at h
    injection h with h1 h2
    subst h1
    subst h2
    cases t' with
    | Invalid x => rfl
    | EndNode => rfl
    | NoOperation => rfl
    | End => rfl
    | BeginNode d r n => exact absurd rfl (hb d r n)
    | Property d n v => exact absurd rfl (hp d n v)

/-- Result shape of the phandle scan: `some (some r)` when `scanList` finds
`r`; otherwise `None` for a stopped stream and a panic for a fatal one. -/
def scanOut (ph : Nat) (last : Token) (ts : List Token) (e : FlatEnd) :
    Option (Option Token) :=
  match scanList ph last ts with
  | some r => some (some r)
  | none => match e with | .stopped _ => some none | .fatal => none

/-- The whole-tree phandle scan, characterized over the flat token list:
the loop agrees with `scanList` on the tokens, and on no match it reports
`None` when the flat stream stopped, or panics when the stream panicked. -/
theorem get_phandle_loop_eq (dt : DeviceTree) (ph : Nat) :
    ∀ (ts : List Token) (e : FlatEnd) (offs : Nat) (last : Token),
      flatSeq dt offs = (ts, e) →
      get_phandle_loop dt ph offs last = scanOut ph last ts e := by
  intro ts
  induction ts with
  | nil =>
    intro e offs last h
    match e with
    | .stopped o => rw [get_phandle_loop_of_stop (flatSeq_nil_stopped h)]; rfl
    | .fatal => rw [get_phandle_loop_of_fatal (flatSeq_nil_fatal h)]; rfl
  | cons t ts ih =>
    intro e offs last h
    obtain ⟨o, hy, hrest⟩ := flatSeq_cons h
    cases t with
    | BeginNode d r n =>
      rw [get_phandle_loop_of_begin hy]
      exact ih e o _ hrest
    | Property d n v =>
      rw [get_phandle_loop_of_prop hy]
      have hsl : scanList ph last (Token.Property d n v :: ts) =
          match (Token.Property d n v).prop_u32 0 with
          | some x => if x = ph then some last else scanList ph last ts
          | none => scanList ph last ts := rfl
      cases hp : (Token.Property d n v).prop_u32 0 with
      | none =>
        show get_phandle_loop dt ph o last = scanOut ph last (Token.Property d n v :: ts) e
        rw [show scanOut ph last (Token.Property d n v :: ts) e = scanOut ph last ts e by
          unfold scanOut; rw [hsl, hp]]
        exact ih e o _ hrest
      | some x =>
        show (if x = ph then some (some last) else get_phandle_loop dt ph o last) =
          scanOut ph last (Token.Property d n v :: ts) e
        by_cases hx : x = ph
        · rw [if_pos hx,
            show scanOut ph last (Token.Property d n v :: ts) e = some (some last) by
              simp [scanOut, hsl, hp, hx]]
        · rw [if_neg hx,
            show scanOut ph last (Token.Property d n v :: ts) e = scanOut ph last ts e by
              simp [scanOut, hsl, hp, hx]]
          exact ih e o _ hrest
    | Invalid x =>
      rw [get_phandle_loop_of_other hy (by intro d r n hc; cases hc)
        (by intro d n v hc; cases hc)]
      exact ih e o _ hrest
    | EndNode =>
      rw [get_phandle_loop_of_other hy (by intro d r n hc; cases hc)
        (by intro d n v hc; cases hc)]
      exact ih e o _ hrest
    | NoOperation =>
      rw [get_phandle_loop_of_other hy (by intro d r n hc; cases hc)
        (by intro d n v hc; cases hc)]
      exact ih e o _ hrest
    | End =>
      rw [get_phandle_loop_of_other hy (by intro d r n hc; cases hc)
        (by intro d n v hc; cases hc)]
      exact ih e o _ hrest

/-- Once the tracked token is a Begin-Node, any token `scanList` returns is
a Begin-Node: the tracked slot is only ever overwritten by Begin-Nodes. -/
theorem scanList_begin_result (ph : Nat) :
    ∀ (ts : List Token) (last r : Token),
      (∃ d ro n, last = Token.BeginNode d ro n) → scanList ph last ts = some r →
      ∃ d ro n, r = Token.BeginNode d ro n := by
  intro ts
  induction ts with
  | nil => intro last r _ h; exact absurd h (by simp [scanList])
  | cons t ts ih =>
    intro last r hlast h
    cases t with
    | BeginNode d ro n => exact ih _ r ⟨d, ro, n, rfl⟩ h
    | Property d n v =>
      have hred : scanList ph last (Token.Property d n v :: ts) =
          match (Token.Property d n v).prop_u32 0 with
          | some x => if x = ph then some last else scanList ph last ts
          | none => scanList ph last ts := rfl
      rw [hred] at h
      cases hp : (Token.Property d n v).prop_u32 0 with
      | none =>
        rw [hp] at h
        exact ih _ r hlast (h : scanList ph last ts = some r)
      | some x =>
        rw [hp] at h
        have h' : (if x = ph then some last else scanList ph last ts) = some r := h
        by_cases hx : x = ph
        · rw [if_pos hx] at h'
          obtain rfl : last = r := by simpa using h'
          exact hlast
        · rw [if_neg hx] at h'
          exact ih _ r hlast h'
    | Invalid x => exact ih _ r hlast h
    | EndNode => exact ih _ r hlast h
    | NoOperation => exact ih _ r hlast h
    | End => exact ih _ r hlast h

theorem get_node_loop_of_fatal {dt : DeviceTree} {offs : Nat} {level : Int}
    {name : List Nat} (h : hierNextAt dt offs level = .fatal) :
    get_node_loop dt offs level name = none := by
  conv_lhs => unfold get_node_loop
  split <;> simp_all

theorem get_node_loop_of_stop {dt : DeviceTree} {offs o : Nat} {level l : Int}
    {name : List Nat} (h : hierNextAt dt offs level = .stop o l) :
    get_node_loop dt offs level name = some none := by
  conv_lhs => unfold get_node_loop
  split <;> simp_all

theorem get_node_loop_of_begin {dt d : DeviceTree} {offs r o : Nat} {level l : Int}
    {n name : List Nat} (h : hierNextAt dt offs level = .yield (.BeginNode d r n) o l) :
    get_node_loop dt offs level name =
      if name = n then some (some (.BeginNode d r n)) else get_node_loop dt o l name := by
  conv_lhs => unfold get_node_loop
  split
  · simp_all
  · simp_all
  · rename_i t' o' l' h'
    rw [h'] at h
    injection h with h1 h2 h3
    subst h1
    subst h2
    subst h3
    rfl

theorem get_node_loop_of_other {dt : DeviceTree} {offs o : Nat} {level l : Int}
    {t : Token} {name : List Nat} (h : hierNextAt dt offs level = .yield t o l)
    (hb : ∀ d r n, t ≠ .BeginNode d r n) :
    get_node_loop dt offs level name = get_node_loop dt o l name := by
  conv_lhs => unfold get_node_loop
  split
  · simp_all
  · simp_all
  · rename_i t' o' l' h'
    rw [h'] at h
    injection h with h1 h2 h3
    subst h1
    subst h2
    subst h3
    cases t' with
    | Invalid x => rfl
    | EndNode => rfl
    | NoOperation => rfl
    | End => rfl
    | Property d n v => rfl
    | BeginNode d r n => exact absurd rfl (hb d r n)

theorem get_prop_loop_of_fatal {dt : DeviceTree} {offs : Nat} {level : Int}
    {name : List Nat} (h : hierNextAt dt offs level = .fatal) :
    get_prop_loop dt offs level name = none := by
  conv_lhs => unfold get_prop_loop
  split <;> simp_all

theorem get_prop_loop_of_stop {dt : DeviceTree} {offs o : Nat} {level l : Int}
    {name : List Nat} (h : hierNextAt dt offs level = .stop o l) :
    get_prop_loop dt offs level name = some none := by
  conv_lhs => unfold get_prop_loop
  split <;> simp_all

theorem get_prop_loop_of_prop {dt d : DeviceTree} {offs o : Nat} {level l : Int}
    {n v name : List Nat} (h : hierNextAt dt offs level = .yield (.Property d n v) o l) :
    get_prop_loop dt offs level name =
      if name = n then some (some (.Property d n v)) else get_prop_loop dt o l name := by
  conv_lhs => unfold get_prop_loop
  split
  · simp_all
  · simp_all
  · rename_i t' o' l' h'
    rw [h'] at h
    injection h with h1 h2 h3
    subst h1
    subst h2
    subst h3
    rfl

theorem get_prop_loop_of_other {dt : DeviceTree} {offs o : Nat} {level l : Int}
    {t : Token} {name : List Nat} (h : hierNextAt dt offs level = .yield t o l)
    (hp : ∀ d n v, t ≠ .Property d n v) :
    get_prop_loop dt offs level name = get_prop_loop dt o l name := by
  conv_lhs => unfold get_prop_loop
  split
  · simp_all
  · simp_all
  · rename_i t' o' l' h'
    rw [h'] at h
    injection h with h1 h2 h3
    subst h1
    subst h2
    subst h3
    cases t' with
    | Invalid x => rfl
    | EndNode => rfl
    | NoOperation => rfl
    | End => rfl
    | BeginNode d r n => rfl
    | Property d n v => exact absurd rfl (hp d n v)

/-- Anything `get_node_loop` finds is a Begin-Node. -/
theorem get_node_loop_shape (dt : DeviceTree) (name : List Nat) :
    ∀ (n : Nat) (offs : Nat) (level : Int) (r : Token),
      dt.structs.length + 4 - offs ≤ n →
      get_node_loop dt offs level name = some (some r) →
      ∃ d ro s, r = Token.BeginNode d ro s := by
  intro n
  induction n with
  | zero =>
    intro offs level r hle h
    rw [get_node_loop_of_fatal (hierNextAt_of_fatal (tokenNextAt_fatal_of_oob (by omega)))] at h
    exact absurd h (by simp)
  | succ n ih =>
    intro offs level r hle h
    match hh : hierNextAt dt offs level with
    | .fatal => rw [get_node_loop_of_fatal hh] at h; exact absurd h (by simp)
    | .stop o l => rw [get_node_loop_of_stop hh] at h; exact absurd h (by simp)
    | .yield t o l =>
      obtain ⟨ho, hblen⟩ := hierNextAt_yield_offs hh
      by_cases hbeg : ∃ d ro s, t = Token.BeginNode d ro s
      · obtain ⟨d, ro, s, rfl⟩ := hbeg
        rw [get_node_loop_of_begin hh] at h
        by_cases hn : name = s
        · rw [if_pos hn] at h
          obtain rfl : Token.BeginNode d ro s = r := by simpa using h
          exact ⟨d, ro, s, rfl⟩
        · rw [if_neg hn] at h
          exact ih o l r (by omega) h
      · rw [get_node_loop_of_other hh (by
          intro d ro s hc
          exact hbeg ⟨d, ro, s, hc⟩)] at h
        exact ih o l r (by omega) h

/-- Anything `get_prop_loop` finds is a Property. -/
theorem get_prop_loop_shape (dt : DeviceTree) (name : List Nat) :
    ∀ (n : Nat) (offs : Nat) (level : Int) (r : Token),
      dt.structs.length + 4 - offs ≤ n →
      get_prop_loop dt offs level name = some (some r) →
      ∃ d s v, r = Token.Property d s v := by
  intro n
  induction n with
  | zero =>
    intro offs level r hle h
    rw [get_prop_loop_of_fatal (hierNextAt_of_fatal (tokenNextAt_fatal_of_oob (by omega)))] at h
    exact absurd h (by simp)
  | succ n ih =>
    intro offs level r hle h
    match hh : hierNextAt dt offs level with
    | .fatal => rw [get_prop_loop_of_fatal hh] at h; exact absurd h (by simp)
    | .stop o l => rw [get_prop_loop_of_stop hh] at h; exact absurd h (by simp)
    | .yield t o l =>
      obtain ⟨ho, hblen⟩ := hierNextAt_yield_offs hh
      by_cases hprop : ∃ d s v, t = Token.Property d s v
      · obtain ⟨d, s, v, rfl⟩ := hprop
        rw [get_prop_loop_of_prop hh] at h
        by_cases hn : name = s
        · rw [if_pos hn] at h
          obtain rfl : Token.Property d s v = r := by simpa using h
          exact ⟨d, s, v, rfl⟩
        · rw [if_neg hn] at h
          exact ih o l r (by omega) h
      · rw [get_prop_loop_of_other hh (by
          intro d s v hc
          exact hprop ⟨d, s, v, hc⟩)] at h
        exact ih o l r (by omega) h

/-- Balanced bodies of the flat token stream, indexed by an upper bound on
their nesting depth: properties, no-operations, and complete Begin/End
node pairs whose balanced interiors sit one level deeper. -/
inductive Balanced : Nat → List Token → Prop where
  | nil (d : Nat) : Balanced d []
  | prop (dd : DeviceTree) (n v : List Nat) (d : Nat) (ts : List Token) :
      Balanced d ts → Balanced d (.Property dd n v :: ts)
  | nop (d : Nat) (ts : List Token) : Balanced d ts → Balanced d (.NoOperation :: ts)
  | node (dd : DeviceTree) (ro : Nat) (n : List Nat) (d : Nat) (inner ts : List Token) :
      Balanced d inner → Balanced (d + 1) ts →
      Balanced (d + 1) (.BeginNode dd ro n :: (inner ++ .EndNode :: ts))

/-- Skipping a balanced body: at nesting level at least 1, and with the
level plus the body's nesting depth below the `i16` overflow boundary (so
every wrapped increment is a plain increment), the hierarchy-scoped
decoder consumes a balanced token block without yielding anything,
landing on the rest of the stream at the same level. -/
theorem hier_skip_balanced (dt : DeviceTree) :
    ∀ {d : Nat} {body : List Token}, Balanced d body →
      ∀ (offs : Nat) (level : Int) (rest : List Token) (e : FlatEnd),
        flatSeq dt offs = (body ++ rest, e) → 1 ≤ level →
        level + (d : Int) ≤ 32767 →
        ∃ offs', flatSeq dt offs' = (rest, e) ∧
          hierNextAt dt offs level = hierNextAt dt offs' level := by
  intro d body hb
  induction hb with
  | nil d => intro offs level rest e h _ _; exact ⟨offs, h, rfl⟩
  | prop dd n v d ts hts ih =>
    intro offs level rest e h hlev hbound
    rw [List.cons_append] at h
    obtain ⟨o, hy, hrest⟩ := flatSeq_cons h
    obtain ⟨offs', h1, h2⟩ := ih o level rest e hrest hlev hbound
    refine ⟨offs', h1, ?_⟩
    rw [hierNextAt_of_other hy (by intro a b c hc; cases hc) (by intro hc; cases hc),
      if_neg (by omega)]
    exact h2
  | nop d ts hts ih =>
    intro offs level rest e h hlev hbound
    rw [List.cons_append] at h
    obtain ⟨o, hy, hrest⟩ := flatSeq_cons h
    obtain ⟨offs', h1, h2⟩ := ih o level rest e hrest hlev hbound
    refine ⟨offs', h1, ?_⟩
    rw [hierNextAt_of_other hy (by intro a b c hc; cases hc) (by intro hc; cases hc),
      if_neg (by omega)]
    exact h2
  | node dd ro n d inner ts hinner hts ih_inner ih_ts =>
    intro offs level rest e h hlev hbound
    rw [List.cons_append, List.append_assoc, List.cons_append] at h
    obtain ⟨o0, hy0, hrest0⟩ := flatSeq_cons h
    have hw1 : wrap16 (level + 1) = level + 1 :=
      wrap16_eq_self (by omega) (by omega)
    obtain ⟨o1, hflat1, heq1⟩ := ih_inner o0 (level + 1) (.EndNode :: (ts ++ rest)) e
      hrest0 (by omega) (by omega)
    obtain ⟨o2, hy2, hrest2⟩ := flatSeq_cons hflat1
    obtain ⟨offs', hf, he⟩ := ih_ts o2 level rest e hrest2 hlev (by omega)
    have hw0 : wrap16 (level + 1 - 1) = level := by
      rw [show level + 1 - 1 = level by omega]
      exact wrap16_eq_self (by omega) (by omega)
    refine ⟨offs', hf, ?_⟩
    rw [hierNextAt_of_begin hy0, hw1, if_neg (by omega), heq1,
      hierNextAt_of_end hy2, hw0, if_neg (by omega), if_neg (by omega)]
    exact he

/-- Fixture: a minimal valid blob (valid header; structure block
`BEGIN_NODE ""`, `END_NODE`, `END`; strings block of four zero bytes). -/
def fdt1 : List Nat :=
  [0xD0, 0x0D, 0xFE, 0xED, 0, 0, 0, 60, 0, 0, 0, 40, 0, 0, 0, 56,
   0, 0, 0, 0, 0, 0, 0, 17, 0, 0, 0, 16, 0, 0, 0, 0,
   0, 0, 0, 4, 0, 0, 0, 16,
   0, 0, 0, 1, 0, 0, 0, 0, 0, 0, 0, 2, 0, 0, 0, 9,
   0, 0, 0, 0]

/-- The tree handle `back` builds from `fdt1`. -/
def dt1 : DeviceTree :=
  ⟨fdt1, [0, 0, 0, 1, 0, 0, 0, 0, 0, 0, 0, 2, 0, 0, 0, 9], [0, 0, 0, 0]⟩

/-- Fixture: a blob with a valid header whose structure block starts with a
Property (no Begin-Node before it), first cell 1. -/
def fdt3 : List Nat :=
  [0xD0, 0x0D, 0xFE, 0xED, 0, 0, 0, 60, 0, 0, 0, 40, 0, 0, 0, 56,
   0, 0, 0, 0, 0, 0, 0, 17, 0, 0, 0, 16, 0, 0, 0, 0,
   0, 0, 0, 4, 0, 0, 0, 16,
   0, 0, 0, 3, 0, 0, 0, 4, 0, 0, 0, 0, 0, 0, 0, 1,
   0, 0, 0, 0]

/-- The tree handle `back` builds from `fdt3`. -/
def dt3 : DeviceTree :=
  ⟨fdt3, [0, 0, 0, 3, 0, 0, 0, 4, 0, 0, 0, 0, 0, 0, 0, 1], [0, 0, 0, 0]⟩

/-- Fixture: a bare handle whose structure block is a root node containing
one property whose value is the single cell 1 (a phandle target). -/
def dt2 : DeviceTree :=
  ⟨[], [0, 0, 0, 1, 0, 0, 0, 0,
        0, 0, 0, 3, 0, 0, 0, 4, 0, 0, 0, 0, 0, 0, 0, 1,
        0, 0, 0, 2, 0, 0, 0, 9], [0, 0, 0, 0]⟩

/-- C1: for every buffer whose header-derived slice bounds lie within it,
`DeviceTree.back` returns `Ok` exactly when the 32-bit big-endian field at
byte 0 equals `0xD00DFEED` and the field at byte 24 equals 16; a magic
mismatch fails with `InvalidMagic`, and otherwise a last-compatible-version
other than 16 fails with `UnsupportedVersion` carrying the value read from
the buffer; the magic check precedes the version check. -/
theorem claim_C1 (fdt : List Nat) (h : headerBoundsOk fdt) :
    ((∃ dt, DeviceTree.back fdt = some (.ok dt)) ↔
      be32 fdt 0 = 0xD00DFEED ∧ be32 fdt 24 = 16) ∧
    (be32 fdt 0 ≠ 0xD00DFEED → DeviceTree.back fdt = some (.error .InvalidMagic)) ∧
    (be32 fdt 0 = 0xD00DFEED → be32 fdt 24 ≠ 16 →
      DeviceTree.back fdt = some (.error (.UnsupportedVersion (be32 fdt 24)))) := by
  obtain ⟨hlen, hb1, hb2⟩ := h
  have hr : ∀ k : Nat, k + 4 ≤ fdt.length →
      read_fdt_u32 fdt k = some (be32 fdt k) := by
    intro k hk
    unfold read_fdt_u32
    rw [if_pos hk]
  have hback : DeviceTree.back fdt =
      backChecks ⟨fdt, (fdt.drop (be32 fdt 8)).take (be32 fdt 36),
        (fdt.drop (be32 fdt 12)).take (be32 fdt 32)⟩ := by
    unfold DeviceTree.back
    rw [hr 8 (by omega), hr 12 (by omega), hr 36 (by omega), hr 32 (by omega)]
    show (if be32 fdt 8 + be32 fdt 36 ≤ fdt.length ∧
        be32 fdt 12 + be32 fdt 32 ≤ fdt.length then _ else none) = _
    rw [if_pos ⟨hb1, hb2⟩]
  have hbc : DeviceTree.back fdt =
      (if be32 fdt 0 ≠ 0xD00DFEED then some (.error .InvalidMagic)
       else if be32 fdt 24 ≠ 16 then
         some (.error (.UnsupportedVersion (be32 fdt 24)))
       else some (.ok ⟨fdt, (fdt.drop (be32 fdt 8)).take (be32 fdt 36),
         (fdt.drop (be32 fdt 12)).take (be32 fdt 32)⟩)) := by
    rw [hback]
    unfold backChecks DeviceTree.magic DeviceTree.last_comp_version
    rw [show (⟨fdt, (fdt.drop (be32 fdt 8)).take (be32 fdt 36),
        (fdt.drop (be32 fdt 12)).take (be32 fdt 32)⟩ : DeviceTree).fdt = fdt from rfl,
      hr 0 (by omega), hr 24 (by omega)]
  refine ⟨⟨?_, ?_⟩, ?_, ?_⟩
  · intro ⟨dt, hdt⟩
    rw [hbc] at hdt
    by_cases h0 : be32 fdt 0 = 0xD00DFEED
    · by_cases h24 : be32 fdt 24 = 16
      · exact ⟨h0, h24⟩
      · rw [if_neg (by simpa using h0), if_pos h24] at hdt
        exact absurd hdt (by simp)
    · rw [if_pos h0] at hdt
      exact absurd hdt (by simp)
  · intro ⟨h0, h24⟩
    refine ⟨⟨fdt, (fdt.drop (be32 fdt 8)).take (be32 fdt 36),
      (fdt.drop (be32 fdt 12)).take (be32 fdt 32)⟩, ?_⟩
    rw [hbc, if_neg (by simpa using h0), if_neg (by simpa using h24)]
  · intro h0
    rw [hbc, if_pos h0]
  · intro h0 h24
    rw [hbc, if_neg (by simpa using h0), if_pos h24]

/-- Witness for C1 at the concrete valid blob `fdt1`. -/
theorem claim_C1_witness :
    headerBoundsOk fdt1 ∧ (∃ dt, DeviceTree.back fdt1 = some (.ok dt)) :=
  ⟨by decide, (claim_C1 fdt1 (by decide)).1.mpr ⟨by decide, by decide⟩⟩

/-- C4: on token id 1 the flat decoder reads the null-terminated name of
length L at the cursor (after the id) and advances the cursor by exactly
(L/4 + 1)*4 bytes, so at least one padding word beyond the terminator is
consumed even when L is a multiple of 4; the Begin-Node carries the
post-advance offset as resume point and the name without the terminator. -/
theorem claim_C4 (dt : DeviceTree) (offs : Nat) (s : List Nat)
    (h1 : read_fdt_u32 dt.structs offs = some 1)
    (h2 : get_fdt_string dt.structs (offs + 4) = some s) :
    tokenNextAt dt offs =
      .yield (.BeginNode dt (offs + 4 + (s.length / 4 + 1) * 4) s)
        (offs + 4 + (s.length / 4 + 1) * 4) ∧
    s.length < (s.length / 4 + 1) * 4 ∧
    (s.length % 4 = 0 → (s.length / 4 + 1) * 4 = s.length + 4) ∧
    (∀ b ∈ s, b ≠ 0) ∧ (∃ rest, dt.structs.drop (offs + 4) = s ++ 0 :: rest) := by
  refine ⟨?_, by omega, by omega, (get_fdt_string_spec h2).1, (get_fdt_string_spec h2).2⟩
  simp [tokenNextAt, h1, h2]

/-- Witness for C4 at `dt1`, offset 0 (empty name: the decoder still
consumes one full padding word and resumes at offset 8). -/
theorem claim_C4_witness :
    tokenNextAt dt1 0 = .yield (.BeginNode dt1 8 []) 8 ∧
      (∃ rest, dt1.structs.drop 4 = 0 :: rest) := by
  have h := claim_C4 dt1 0 [] (by decide) (by decide)
  exact ⟨by simpa using h.1, by simpa using h.2.2.2.2⟩

/-- C5: on token id 3 the flat decoder reads a 4-byte big-endian length and
a 4-byte name-table offset, resolves the name in the strings block, emits
exactly `len` value bytes starting after the two words, and advances the
cursor past the value rounded up to the next 4-byte boundary. -/
theorem claim_C5 (dt : DeviceTree) (offs len nameoff : Nat) (name : List Nat)
    (h1 : read_fdt_u32 dt.structs offs = some 3)
    (h2 : read_fdt_u32 dt.structs (offs + 4) = some len)
    (h3 : read_fdt_u32 dt.structs (offs + 8) = some nameoff)
    (h4 : get_fdt_string dt.strings nameoff = some name)
    (h5 : offs + 12 + len ≤ dt.structs.length) :
    tokenNextAt dt offs =
      .yield (.Property dt name ((dt.structs.drop (offs + 12)).take len))
        (offs + 12 + ((len + 3) / 4) * 4) ∧
    ((dt.structs.drop (offs + 12)).take len).length = len ∧
    (∀ b ∈ name, b ≠ 0) ∧ (∃ rest, dt.strings.drop nameoff = name ++ 0 :: rest) := by
  refine ⟨?_, ?_, (get_fdt_string_spec h4).1, (get_fdt_string_spec h4).2⟩
  · simp [tokenNextAt, h1, h2, h3, h4, h5]
  · simp only [List.length_take, List.length_drop]
    omega

/-- Witness for C5 at `dt2`, offset 8 (a 4-byte property named by strings
offset 0; the cursor advances to 24). -/
theorem claim_C5_witness :
    tokenNextAt dt2 8 = .yield (.Property dt2 [] [0, 0, 0, 1]) 24 ∧
      ((dt2.structs.drop 20).take 4).length = 4 := by
  have h := claim_C5 dt2 8 4 0 [] (by decide) (by decide) (by decide) (by decide)
    (by decide)
  exact ⟨by simpa [dt2] using h.1, by simpa using h.2.1⟩

/-- C6: on token id 9 or any id outside {1, 2, 3, 4} the flat decoder stops
the sequence — no token is produced and no Invalid token is surfaced — and
the dispatch itself never fails on a garbage id. -/
theorem claim_C6 (dt : DeviceTree) (offs id : Nat)
    (h1 : read_fdt_u32 dt.structs offs = some id)
    (h2 : id ≠ 1) (h3 : id ≠ 2) (h4 : id ≠ 3) (h5 : id ≠ 4) :
    tokenNextAt dt offs = .stop (offs + 4) := by
  simp [tokenNextAt, h1, h2, h3, h4, h5]

/-- Witness for C6 at `dt1`, offset 12 (the END token, id 9). -/
theorem claim_C6_witness : tokenNextAt dt1 12 = .stop 16 := by
  simpa using claim_C6 dt1 12 9 (by decide) (by decide) (by decide) (by decide)
    (by decide)

/-- C10: a flat-decoder `next` that returns nothing on an End or
unrecognized id has already advanced the cursor past the token, so the
successor state decodes at the advanced offset instead of returning
nothing again; when that token occupied the last four bytes of the
structure slice, the subsequent call indexes past the end — a fatal
bounds failure. -/
theorem claim_C10 (it : TokenIterator) (dt : DeviceTree) (id : Nat)
    (hdt : it.dt = some dt)
    (h1 : read_fdt_u32 dt.structs it.offs = some id)
    (h2 : id ≠ 1) (h3 : id ≠ 2) (h4 : id ≠ 3) (h5 : id ≠ 4) :
    it.next = some (none, ⟨it.dt, it.offs + 4⟩) ∧
    (dt.structs.length < it.offs + 8 →
      TokenIterator.next ⟨it.dt, it.offs + 4⟩ = none) := by
  have hstep : tokenNextAt dt it.offs = .stop (it.offs + 4) := by
    simp [tokenNextAt, h1, h2, h3, h4, h5]
  constructor
  · simp [TokenIterator.next, hdt, hstep]
  · intro hoob
    simp [TokenIterator.next, hdt,
      tokenNextAt_fatal_of_oob (show dt.structs.length < it.offs + 4 + 4 by omega)]

/-- Witness for C10 at `dt1`: the END token occupies bytes 12..16 of the
16-byte structure block; the call after the stop is fatal. -/
theorem claim_C10_witness :
    TokenIterator.next ⟨some dt1, 12⟩ = some (none, ⟨some dt1, 16⟩) ∧
      TokenIterator.next ⟨some dt1, 16⟩ = none := by
  have h := claim_C10 ⟨some dt1, 12⟩ dt1 9 rfl (by decide) (by decide) (by decide)
    (by decide) (by decide)
  exact ⟨h.1, h.2 (by decide)⟩

/-- C3: one step of the hierarchy-scoped decoder over its inner flat
token, with the depth kept in the source's `i16` counter — an update is
the wrapping `i16` increment or decrement (`wrap16`), which equals plain
plus or minus one at every non-boundary depth (last two conjuncts):
Begin-Node increments the depth and is yielded iff the new depth is at
most 1; End-Node decrements the depth, is yielded iff the new depth is 0,
and stops the sequence at once when the new depth is negative; any other
token is yielded iff the depth is 0; a token that is not yielded is still
consumed — the decoder continues from the advanced inner cursor. -/
theorem claim_C3 (dt : DeviceTree) (offs : Nat) (level : Int) (t : Token) (o : Nat)
    (h : tokenNextAt dt offs = .yield t o) :
    (∀ d r n, t = .BeginNode d r n →
      hierNextAt dt offs level =
        if wrap16 (level + 1) ≤ 1 then .yield t o (wrap16 (level + 1))
        else hierNextAt dt o (wrap16 (level + 1))) ∧
    (t = .EndNode →
      hierNextAt dt offs level =
        if wrap16 (level - 1) = 0 then .yield t o (wrap16 (level - 1))
        else if wrap16 (level - 1) < 0 then .stop o (wrap16 (level - 1))
        else hierNextAt dt o (wrap16 (level - 1))) ∧
    ((∀ d r n, t ≠ .BeginNode d r n) → t ≠ .EndNode →
      hierNextAt dt offs level =
        if level = 0 then .yield t o level else hierNextAt dt o level) ∧
    (-32768 ≤ level → level ≤ 32766 → wrap16 (level + 1) = level + 1) ∧
    (-32767 ≤ level → level ≤ 32767 → wrap16 (level - 1) = level - 1) := by
  refine ⟨?_, ?_, ?_, ?_, ?_⟩
  · intro d r n ht
    subst ht
    exact hierNextAt_of_begin h
  · intro ht
    subst ht
    exact hierNextAt_of_end h
  · intro hb he
    exact hierNextAt_of_other h hb he
  · intro h1 h2
    exact wrap16_eq_self (by omega) (by omega)
  · intro h1 h2
    exact wrap16_eq_self (by omega) (by omega)

/-- Witness for C3 at `dt1`: the root Begin-Node at level 0 is yielded with
the depth now 1 (the wrapped increment of 0). -/
theorem claim_C3_witness : hierNextAt dt1 0 0 = .yield (.BeginNode dt1 8 []) 8 1 := by
  have h := (claim_C3 dt1 0 0 (.BeginNode dt1 8 []) 8 (by decide)).1 dt1 8 [] rfl
  rw [h, show wrap16 (0 + 1) = 1 by decide, if_pos (by norm_num)]

/-- C7: `len` of a Property is the byte length of its value; `len` of a
Begin-Node counts exactly the Begin-Node and Property tokens of a full
hierarchy-scoped drain of its body (No-Operation and End-Node are not
counted by the filter); `len` of every other token is 0; `empty` holds iff
`len` is 0. -/
theorem claim_C7 :
    (∀ (d : DeviceTree) (n v : List Nat), (Token.Property d n v).len = some v.length) ∧
    (∀ (d : DeviceTree) (o : Nat) (n : List Nat),
      (Token.BeginNode d o n).len =
        (hierDrain d o 0).map (fun l => (l.filter isChild).length)) ∧
    (∀ t : Token, isChild t = true ↔
      ((∃ d r n, t = .BeginNode d r n) ∨ (∃ d n v, t = .Property d n v))) ∧
    (∀ x, (Token.Invalid x).len = some 0) ∧ (Token.EndNode.len = some 0) ∧
    (Token.NoOperation.len = some 0) ∧ (Token.End.len = some 0) ∧
    (∀ t : Token, t.empty = some true ↔ t.len = some 0) := by
  refine ⟨fun d n v => rfl, fun d o n => rfl, ?_, fun x => rfl, rfl, rfl, rfl, ?_⟩
  · intro t
    cases t <;> simp [isChild]
  · intro t
    unfold Token.empty
    cases h : t.len with
    | none => simp
    | some k => simp

/-- Evaluation of the flat sequence of the fixture `dt1`. -/
theorem flatSeq_dt1_eval :
    flatSeq dt1 0 = ([.BeginNode dt1 8 [], .EndNode], .stopped 16) := by
  have h0 : tokenNextAt dt1 0 = .yield (.BeginNode dt1 8 []) 8 := by decide
  have h8 : tokenNextAt dt1 8 = .yield .EndNode 12 := by decide
  have h12 : tokenNextAt dt1 12 = .stop 16 := by decide
  rw [flatSeq_of_yield h0, flatSeq_of_yield h8, flatSeq_of_stop h12]

/-- C2 as amended: over a well-formed blob (flat stream = root Begin-Node,
balanced body, the root's End-Node, then stop) whose nesting depth keeps
the `i16` level counter below its overflow boundary, the hierarchy-scoped
decoder started at offset 0 yields exactly two tokens — the root
Begin-Node and then the root's own End-Node — before end-of-sequence;
`root()` is the first of these, hence always a Begin-Node, and it fails
fatally when the hierarchy-scoped decoder yields nothing. -/
theorem claim_C2_amended (dt : DeviceTree) (r e : Nat) (name : List Nat)
    (d : Nat) (body : List Token)
    (hw : flatSeq dt 0 = (.BeginNode dt r name :: (body ++ [.EndNode]), .stopped e))
    (hb : Balanced d body) (hd : (d : Int) ≤ 32766) :
    dt.root = some (.BeginNode dt r name) ∧
    hierNextAt dt 0 0 = .yield (.BeginNode dt r name) r 1 ∧
    (∃ o, hierNextAt dt r 1 = .yield .EndNode o 0 ∧ hierNextAt dt o 0 = .stop e 0) ∧
    (∀ (dt' : DeviceTree) (o' : Nat) (l' : Int),
      hierNextAt dt' 0 0 = .stop o' l' → dt'.root = none) := by
  obtain ⟨o0, hy0, hrest0⟩ := flatSeq_cons hw
  have hro : r = o0 := by
    rcases tokenNextAt_yield_shape hy0 with ⟨r', n', he, hq⟩ | he | ⟨n', v', he⟩ | he
    · injection he with he1 he2 he3
      omega
    · cases he
    · cases he
    · cases he
  subst hro
  have h1 : hierNextAt dt 0 0 = .yield (.BeginNode dt r name) r 1 := by
    rw [hierNextAt_of_begin hy0, show wrap16 (0 + 1) = 1 by decide,
      if_pos (by norm_num)]
  refine ⟨?_, h1, ?_, ?_⟩
  · unfold DeviceTree.root
    rw [h1]
  · obtain ⟨o1, hf1, he1⟩ :=
      hier_skip_balanced dt hb r 1 [.EndNode] (.stopped e) hrest0 (by norm_num)
        (by omega)
    obtain ⟨o2, hy2, hrest2⟩ := flatSeq_cons hf1
    refine ⟨o2, ?_, hierNextAt_of_stop (flatSeq_nil_stopped hrest2)⟩
    rw [he1, hierNextAt_of_end hy2, show wrap16 (1 - 1) = 0 by decide, if_pos rfl]
  · intro dt' o' l' h
    unfold DeviceTree.root
    rw [h]

/-- Counterexample to C2 as stated: on the well-formed minimal blob `fdt1`
(accepted by `back`, flat stream = root Begin-Node, empty balanced body,
End-Node, stop) the hierarchy-scoped decoder started at offset 0 yields a
second token — the root's End-Node — rather than ending after the root
Begin-Node. -/
theorem claim_C2_counterexample :
    DeviceTree.back fdt1 = some (.ok dt1) ∧
    flatSeq dt1 0 = ([.BeginNode dt1 8 [], .EndNode], .stopped 16) ∧
    Balanced 0 ([] : List Token) ∧
    hierNextAt dt1 0 0 = .yield (.BeginNode dt1 8 []) 8 1 ∧
    hierNextAt dt1 8 1 = .yield .EndNode 12 0 := by
  refine ⟨rfl, flatSeq_dt1_eval, Balanced.nil 0, ?_, ?_⟩
  · rw [hierNextAt_of_begin (show tokenNextAt dt1 0 = .yield (.BeginNode dt1 8 []) 8
      by decide), show wrap16 (0 + 1) = 1 by decide, if_pos (by norm_num)]
  · rw [hierNextAt_of_end (show tokenNextAt dt1 8 = .yield .EndNode 12 by decide),
      show wrap16 (1 - 1) = 0 by decide, if_pos rfl]

/-- Witness for the amended C2 at the concrete blob `dt1`. -/
theorem claim_C2_witness :
    dt1.root = some (.BeginNode dt1 8 []) ∧
      (∃ o, hierNextAt dt1 8 1 = .yield .EndNode o 0 ∧ hierNextAt dt1 o 0 = .stop 16 0) := by
  have h := claim_C2_amended dt1 8 16 [] 0 [] (by simpa using flatSeq_dt1_eval)
    (Balanced.nil 0) (by norm_num)
  exact ⟨h.1, h.2.2.1⟩

/-- Evaluation of the flat sequence of the fixture `dt2`. -/
theorem flatSeq_dt2_eval :
    flatSeq dt2 0 =
      ([.BeginNode dt2 8 [], .Property dt2 [] [0, 0, 0, 1], .EndNode], .stopped 32) := by
  have h0 : tokenNextAt dt2 0 = .yield (.BeginNode dt2 8 []) 8 := by decide
  have h8 : tokenNextAt dt2 8 = .yield (.Property dt2 [] [0, 0, 0, 1]) 24 := by decide
  have h24 : tokenNextAt dt2 24 = .yield .EndNode 28 := by decide
  have h28 : tokenNextAt dt2 28 = .stop 32 := by decide
  rw [flatSeq_of_yield h0, flatSeq_of_yield h8, flatSeq_of_yield h24,
    flatSeq_of_stop h28]

/-- When the flat stream opens with a Begin-Node, anything `get_phandle`
returns is a Begin-Node: the tracked slot is overwritten at the first
step and only ever holds Begin-Nodes afterwards. -/
theorem get_phandle_result_begin {dt d' : DeviceTree} {ro : Nat} {n : List Nat}
    {ts : List Token} {e : FlatEnd} {ph : Nat} {r : Token}
    (hf : flatSeq dt 0 = (.BeginNode d' ro n :: ts, e))
    (h : dt.get_phandle ph = some (some r)) :
    ∃ a b c, r = Token.BeginNode a b c := by
  unfold DeviceTree.get_phandle at h
  by_cases hph : ph = 0
  · rw [if_pos hph] at h
    exact absurd h (by simp)
  · rw [if_neg hph] at h
    rw [get_phandle_loop_eq dt ph _ e 0 _ hf] at h
    unfold scanOut at h
    rw [show scanList ph (.Invalid 0) (.BeginNode d' ro n :: ts) =
      scanList ph (.BeginNode d' ro n) ts from rfl] at h
    cases hs : scanList ph (.BeginNode d' ro n) ts with
    | none =>
      rw [hs] at h
      cases e with
      | stopped o => exact absurd h (by simp)
      | fatal => exact absurd h (by simp)
    | some r' =>
      rw [hs] at h
      obtain rfl : r' = r := by simpa using h
      exact scanList_begin_result ph ts _ r' ⟨d', ro, n, rfl⟩ hs

/-- C8: `prop_phandle` short-circuits to nothing when the first cell is 0,
when the token is not a Property, and when the value holds fewer than 4
bytes; otherwise it delegates to `get_phandle`, which performs a
whole-tree linear scan of the flat decoder from offset 0 tracking the most
recently seen Begin-Node and returning it at the first property whose
first cell equals the target (short properties never match), and returns
nothing when the scan ends without a match. -/
theorem claim_C8 :
    (∀ (d : DeviceTree) (n v : List Nat),
      (Token.Property d n v).prop_u32 0 = some 0 →
      (Token.Property d n v).prop_phandle = some none) ∧
    (∀ t : Token, (∀ d n v, t ≠ .Property d n v) → t.prop_phandle = some none) ∧
    (∀ (d : DeviceTree) (n v : List Nat), v.length < 4 →
      (Token.Property d n v).prop_phandle = some none) ∧
    (∀ (d : DeviceTree) (n v : List Nat) (ph : Nat),
      (Token.Property d n v).prop_u32 0 = some ph →
      (Token.Property d n v).prop_phandle = d.get_phandle ph) ∧
    (∀ (dt : DeviceTree) (ph : Nat) (ts : List Token) (e : FlatEnd), ph ≠ 0 →
      flatSeq dt 0 = (ts, e) →
      dt.get_phandle ph = scanOut ph (.Invalid 0) ts e) ∧
    (∀ (ph : Nat) (last : Token) (d : DeviceTree) (ro : Nat) (n : List Nat)
      (ts : List Token),
      scanList ph last (.BeginNode d ro n :: ts) = scanList ph (.BeginNode d ro n) ts) ∧
    (∀ (ph : Nat) (last : Token) (d : DeviceTree) (n v : List Nat) (ts : List Token),
      v.length < 4 → scanList ph last (.Property d n v :: ts) = scanList ph last ts) ∧
    (∀ (ph x : Nat) (last : Token) (d : DeviceTree) (n v : List Nat) (ts : List Token),
      (Token.Property d n v).prop_u32 0 = some x →
      scanList ph last (.Property d n v :: ts) =
        if x = ph then some last else scanList ph last ts) ∧
    (∀ dt : DeviceTree, dt.get_phandle 0 = some none) := by
  have hu32_short : ∀ (d : DeviceTree) (n v : List Nat), v.length < 4 →
      (Token.Property d n v).prop_u32 0 = none := by
    intro d n v hv
    show (if 0 * 4 + 4 > v.length then none else some (be32 v (0 * 4))) = (none : Option Nat)
    rw [if_pos (by omega)]
  have hzero : ∀ dt : DeviceTree, DeviceTree.get_phandle dt 0 = some none := by
    intro dt
    unfold DeviceTree.get_phandle
    rw [if_pos rfl]
  refine ⟨?_, ?_, ?_, ?_, ?_, ?_, ?_, ?_, hzero⟩
  · intro d n v h
    show (match (Token.Property d n v).prop_u32 0 with
      | some phandle => d.get_phandle phandle
      | none => some none) = some none
    rw [h]
    exact hzero d
  · intro t ht
    cases t with
    | Property d n v => exact absurd rfl (ht d n v)
    | Invalid x => rfl
    | BeginNode d r n => rfl
    | EndNode => rfl
    | NoOperation => rfl
    | End => rfl
  · intro d n v hv
    show (match (Token.Property d n v).prop_u32 0 with
      | some phandle => d.get_phandle phandle
      | none => some none) = some none
    rw [hu32_short d n v hv]
  · intro d n v ph h
    show (match (Token.Property d n v).prop_u32 0 with
      | some phandle => d.get_phandle phandle
      | none => some none) = d.get_phandle ph
    rw [h]
  · intro dt ph ts e hph hf
    unfold DeviceTree.get_phandle
    rw [if_neg hph]
    exact get_phandle_loop_eq dt ph ts e 0 _ hf
  · intro ph last d ro n ts
    rfl
  · intro ph last d n v ts hv
    show (match (Token.Property d n v).prop_u32 0 with
      | some x => if x = ph then some last else scanList ph last ts
      | none => scanList ph last ts) = scanList ph last ts
    rw [hu32_short d n v hv]
  · intro ph x last d n v ts h
    show (match (Token.Property d n v).prop_u32 0 with
      | some x => if x = ph then some last else scanList ph last ts
      | none => scanList ph last ts) =
      if x = ph then some last else scanList ph last ts
    rw [h]

/-- Witness for C8 at `dt2`: phandle 1 resolves to the root node tracked by
the scan, and phandle 0 resolves to nothing. -/
theorem claim_C8_witness :
    dt2.get_phandle 1 = some (some (.BeginNode dt2 8 [])) ∧
      dt2.get_phandle 0 = some none := by
  constructor
  · rw [claim_C8.2.2.2.2.1 dt2 1 _ (.stopped 32) (by omega) flatSeq_dt2_eval]
    decide
  · exact claim_C8.2.2.2.2.2.2.2.2 dt2

/-- C9 as amended: the flat decoder, the hierarchy-scoped decoder, `root`,
`get_node` and `get_prop` never produce an Invalid token; phandle
resolution (`get_phandle`, and `prop_phandle` through it) never produces
one provided the flat token stream of the scanned tree opens with a
Begin-Node — without that proviso the scan's initial `Invalid 0` tracker
can escape (see the counterexample). -/
theorem claim_C9_amended :
    (∀ (dt : DeviceTree) (offs : Nat) (t : Token) (o x : Nat),
      tokenNextAt dt offs = .yield t o → t ≠ .Invalid x) ∧
    (∀ (dt : DeviceTree) (offs : Nat) (level : Int) (t : Token) (o : Nat) (l : Int)
      (x : Nat), hierNextAt dt offs level = .yield t o l → t ≠ .Invalid x) ∧
    (∀ (dt : DeviceTree) (t : Token) (x : Nat), dt.root = some t → t ≠ .Invalid x) ∧
    (∀ (t : Token) (name : List Nat) (r : Token) (x : Nat),
      t.get_node name = some (some r) → r ≠ .Invalid x) ∧
    (∀ (t : Token) (name : List Nat) (r : Token) (x : Nat),
      t.get_prop name = some (some r) → r ≠ .Invalid x) ∧
    (∀ (dt d' : DeviceTree) (ph ro : Nat) (n : List Nat) (ts : List Token)
      (e : FlatEnd) (r : Token) (x : Nat),
      flatSeq dt 0 = (.BeginNode d' ro n :: ts, e) →
      dt.get_phandle ph = some (some r) → r ≠ .Invalid x) ∧
    (∀ (d d' : DeviceTree) (nm v n : List Nat) (ro : Nat) (ts : List Token)
      (e : FlatEnd) (r : Token) (x : Nat),
      flatSeq d 0 = (.BeginNode d' ro n :: ts, e) →
      (Token.Property d nm v).prop_phandle = some (some r) → r ≠ .Invalid x) := by
  have hflat : ∀ (dt : DeviceTree) (offs : Nat) (t : Token) (o x : Nat),
      tokenNextAt dt offs = .yield t o → t ≠ .Invalid x := by
    intro dt offs t o x h hx
    rcases tokenNextAt_yield_shape h with ⟨r, n, he, _⟩ | he | ⟨n, v, he⟩ | he <;>
      rw [hx] at he <;> cases he
  refine ⟨hflat, fun dt offs level t o l x h => hierNextAt_yield_not_invalid h x,
    ?_, ?_, ?_, ?_, ?_⟩
  · intro dt t x h hx
    subst hx
    unfold DeviceTree.root at h
    match hh : hierNextAt dt 0 0 with
    | .fatal => rw [hh] at h; exact absurd h (by simp)
    | .stop o l => rw [hh] at h; exact absurd h (by simp)
    | .yield t' o l =>
      rw [hh] at h
      obtain rfl : t' = .Invalid x := by simpa using h
      exact hierNextAt_yield_not_invalid hh x rfl
  · intro t name r x h hx
    subst hx
    cases t with
    | BeginNode d o n =>
      obtain ⟨a, b, c, hc⟩ := get_node_loop_shape d name (d.structs.length + 4) o 0 _
        (by omega) h
      cases hc
    | Invalid y => exact absurd h (by simp [Token.get_node])
    | EndNode => exact absurd h (by simp [Token.get_node])
    | Property d n v => exact absurd h (by simp [Token.get_node])
    | NoOperation => exact absurd h (by simp [Token.get_node])
    | End => exact absurd h (by simp [Token.get_node])
  · intro t name r x h hx
    subst hx
    cases t with
    | BeginNode d o n =>
      obtain ⟨a, b, c, hc⟩ := get_prop_loop_shape d name (d.structs.length + 4) o 0 _
        (by omega) h
      cases hc
    | Invalid y => exact absurd h (by simp [Token.get_prop])
    | EndNode => exact absurd h (by simp [Token.get_prop])
    | Property d n v => exact absurd h (by simp [Token.get_prop])
    | NoOperation => exact absurd h (by simp [Token.get_prop])
    | End => exact absurd h (by simp [Token.get_prop])
  · intro dt d' ph ro n ts e r x hf h hx
    subst hx
    obtain ⟨a, b, c, hc⟩ := get_phandle_result_begin hf h
    cases hc
  · intro d d' nm v n ro ts e r x hf h hx
    subst hx
    revert h
    show ¬ ((match (Token.Property d nm v).prop_u32 0 with
      | some phandle => d.get_phandle phandle
      | none => some none) = some (some (.Invalid x)))
    cases hp : (Token.Property d nm v).prop_u32 0 with
    | none => simp
    | some ph =>
      intro h
      obtain ⟨a, b, c, hc⟩ := get_phandle_result_begin hf (h : d.get_phandle ph = _)
      cases hc

/-- Counterexample to C9 as stated: `fdt3` is accepted by `back`, yet its
structure block opens with a property whose first cell is 1, so resolving
phandle 1 returns the scan's initial tracker `Invalid 0` — an Invalid
token escapes through normal phandle resolution. -/
theorem claim_C9_counterexample :
    DeviceTree.back fdt3 = some (.ok dt3) ∧
    dt3.get_phandle 1 = some (some (.Invalid 0)) ∧
    (Token.Property dt3 [] [0, 0, 0, 1]).prop_phandle = some (some (.Invalid 0)) := by
  have hy : tokenNextAt dt3 0 = .yield (.Property dt3 [] [0, 0, 0, 1]) 16 := by decide
  have hp : (Token.Property dt3 [] [0, 0, 0, 1]).prop_u32 0 = some 1 := by decide
  have h2 : dt3.get_phandle 1 = some (some (.Invalid 0)) := by
    unfold DeviceTree.get_phandle
    rw [if_neg (by omega), get_phandle_loop_of_prop hy, hp]
    show (if 1 = 1 then some (some (Token.Invalid 0))
      else get_phandle_loop dt3 1 16 (.Invalid 0)) = some (some (.Invalid 0))
    rw [if_pos rfl]
  refine ⟨rfl, h2, ?_⟩
  show (match (Token.Property dt3 [] [0, 0, 0, 1]).prop_u32 0 with
    | some phandle => dt3.get_phandle phandle
    | none => some none) = some (some (.Invalid 0))
  rw [hp]
  exact h2

/-- Witness for the amended C9 at `dt2`, whose flat stream opens with the
root Begin-Node: resolving phandle 1 yields that Begin-Node, which is not
an Invalid token. -/
theorem claim_C9_witness :
    dt2.get_phandle 1 = some (some (.BeginNode dt2 8 [])) ∧
      (Token.BeginNode dt2 8 [] : Token) ≠ .Invalid 7 := by
  have hres : dt2.get_phandle 1 = some (some (.BeginNode dt2 8 [])) := by
    unfold DeviceTree.get_phandle
    rw [if_neg (by omega),
      get_phandle_loop_eq dt2 1 _ (.stopped 32) 0 (.Invalid 0) flatSeq_dt2_eval]
    decide
  exact ⟨hres, claim_C9_amended.2.2.2.2.2.1 dt2 dt2 1 8 []
    [.Property dt2 [] [0, 0, 0, 1], .EndNode] (.stopped 32)
    (.BeginNode dt2 8 []) 7 flatSeq_dt2_eval hres⟩

end StaticDT
